import Mathlib

/-!
Verification of the parsco parser-combinator engine.

This file gives a shallow embedding of the execution core of the library
(promise.hpp / parser.hpp), of its builtin lexical primitives (magic.cpp),
of the primitive parsers and the combinator library (combinator.cpp,
combinator.hpp), of the basic extension parsers (ext-basic.cpp,
ext-std.hpp) and of the runner (runner.hpp), together with theorems about
the embedded definitions.

Modelling conventions:
- the input buffer is a list of characters; a coroutine promise is a state
  holding the remaining buffer, the number of characters consumed so far
  and the farthest offset reached, exactly the fields in_, consumed_ and
  farthest_ of promise_type;
- a finished parser is a result: either a value together with the number
  of consumed characters and the farthest offset, or an error message
  together with the farthest offset (the fields a parent coroutine reads
  from a finished child);
- a coroutine body is a state transformer that either produces a value or
  aborts with an error message, mirroring the fact that a failing await
  finishes the coroutine at once;
- the repetition loop of the many combinator is modelled with fuel; when
  the fuel runs out the model signals the (real) non-termination of the
  loop with the reserved error message DIVERGENT, which no piece of the
  embedded library ever produces itself.
-/

deriving instance DecidableEq for Except

namespace Parsco

/-- Outcome of a finished parser: the value together with the consumed
count and the farthest offset, or an error message together with the
farthest offset. These are exactly the observables a parent coroutine
reads from a finished child parser (parser.hpp: get, consumed, farthest,
error). -/
inductive PResult (α : Type) where
  | ok (v : α) (consumed : Nat) (farthest : Nat)
  | err (msg : String) (farthest : Nat)
deriving Repr, DecidableEq

/-- A parser is a function from the buffer it is driven at (the remaining
suffix of the input) to its outcome. -/
def ParserFun (α : Type) : Type := List Char → PResult α

/-- The mutable state of one coroutine promise (promise_type in
promise.hpp): the remaining buffer in_, the consumed count consumed_ and
the farthest offset farthest_. -/
structure PState where
  buf : List Char
  consumed : Nat
  farthest : Nat
deriving Repr, DecidableEq

/-- A coroutine body: a state transformer producing either a value or an
error message. An error aborts the rest of the body, matching a failing
await finishing the coroutine. -/
def PM (α : Type) : Type := PState → Except String α × PState

def PM.pure {α : Type} (v : α) : PM α := fun s => (Except.ok v, s)

def PM.bind {α β : Type} (x : PM α) (f : α → PM β) : PM β := fun s =>
  match x s with
  | (Except.ok v, s1) => f v s1
  | (Except.error m, s1) => (Except.error m, s1)

instance : Monad PM where
  pure := @PM.pure
  bind := @PM.bind

theorem PM.bind_eq {α β : Type} (x : PM α) (f : α → PM β) (s : PState) :
    (x >>= f) s =
      match x s with
      | (Except.ok v, s1) => f v s1
      | (Except.error m, s1) => (Except.error m, s1) := rfl

theorem PM.pure_eq {α : Type} (v : α) (s : PState) :
    (Pure.pure v : PM α) s = (Except.ok v, s) := rfl

/-- Awaiting a sub-parser (promise_type::awaitable): the child is driven
at the current buffer; farthest_ is updated to
max farthest_ (consumed_ + child.farthest()) in await_ready; on success
the buffer advances by the consumed count of the child and consumed_ grows
by it (await_resume); on failure the error is copied into the promise
(await_suspend) and the body stops. -/
def awaitP {α : Type} (p : ParserFun α) : PM α := fun s =>
  match p s.buf with
  | PResult.ok v c f =>
      (Except.ok v, ⟨s.buf.drop c, s.consumed + c, max s.farthest (s.consumed + f)⟩)
  | PResult.err m f =>
      (Except.error m, ⟨s.buf, s.consumed, max s.farthest (s.consumed + f)⟩)

/-- Awaiting a try_-wrapped sub-parser (tryable_awaitable): same farthest_
update as awaitP, but a failure yields the empty optional instead of
finishing the enclosing coroutine, and the buffer and consumed count are
then left untouched. -/
def awaitTry {α : Type} (p : ParserFun α) : PM (Option α) := fun s =>
  match p s.buf with
  | PResult.ok v c f =>
      (Except.ok (some v), ⟨s.buf.drop c, s.consumed + c, max s.farthest (s.consumed + f)⟩)
  | PResult.err _ f =>
      (Except.ok none, ⟨s.buf, s.consumed, max s.farthest (s.consumed + f)⟩)

/-- Awaiting fail(msg) (await_transform(fail_wrapper)): the promise is
finished with the error; no state field changes. -/
def awaitFail {α : Type} (msg : String) : PM α := fun s => (Except.error msg, s)

/-- Awaiting builtin_next_char: if the buffer is empty the coroutine
finishes with error EOF; otherwise one character is consumed, consumed_
is incremented and farthest_ is ASSIGNED (not maxed) to consumed_. -/
def awaitNextChar : PM Char := fun s =>
  match s.buf with
  | [] => (Except.error "EOF", s)
  | c :: rest => (Except.ok c, ⟨rest, s.consumed + 1, s.consumed + 1⟩)

/-- The type of the try_parse member of a builtin parser (magic.hpp):
from the buffer to an optional pair of the yielded slice and the consumed
count. -/
def BuiltinTryParse : Type := List Char → Option (List Char × Nat)

/-- Awaiting a builtin parser (builtin_awaitable): on success the buffer
advances by the consumed count, consumed_ grows by it and farthest_ is
ASSIGNED (not maxed) to consumed_; on failure the coroutine finishes with
the error "expected " followed by the name of the builtin. -/
def awaitBuiltin (tp : BuiltinTryParse) (name : String) : PM (List Char) := fun s =>
  match tp s.buf with
  | some r =>
      (Except.ok r.1, ⟨s.buf.drop r.2, s.consumed + r.2, s.consumed + r.2⟩)
  | none => (Except.error ("expected " ++ name), s)

/-- Packaging a coroutine body as a parser: the promise starts with the
given buffer and zero counters; the outcome exposes the final consumed
and farthest counters. -/
def runBody {α : Type} (body : PM α) : ParserFun α := fun buf =>
  match body ⟨buf, 0, 0⟩ with
  | (Except.ok v, s) => PResult.ok v s.consumed s.farthest
  | (Except.error m, s) => PResult.err m s.farthest

/-! Builtin lexical primitives, magic.cpp. -/

/-- The single-quote character, written by code to keep the source free of
quote literals. -/
def squote : Char := Char.ofNat 39

/-- is_blank in magic.cpp (and the identical copy in combinator.cpp):
space, line feed, carriage return or tab. -/
def is_blank (c : Char) : Bool :=
  (c == ' ') || (c == '\n') || (c == '\r') || (c == '\t')

def is_leading_identifier_char (c : Char) : Bool :=
  ('A' ≤ c && c ≤ 'Z') || ('a' ≤ c && c ≤ 'z') || (c == '_')

def is_identifier_char (c : Char) : Bool :=
  ('0' ≤ c && c ≤ '9') || ('A' ≤ c && c ≤ 'Z') || ('a' ≤ c && c ≤ 'z') || (c == '_')

/-- The scanning loop of builtin_blanks::try_parse: the number of leading
characters satisfying is_blank. -/
def blanks_count : List Char → Nat
  | [] => 0
  | c :: rest => if is_blank c then blanks_count rest + 1 else 0

/-- builtin_blanks::try_parse: always succeeds, yielding the leading run
of blank characters and consuming its length. -/
def builtin_blanks_try_parse : BuiltinTryParse := fun in_ =>
  some (in_.take (blanks_count in_), blanks_count in_)

/-- The scanning loop shared by builtin_single_quoted::try_parse and
builtin_double_quoted::try_parse after the opening quote: consume
characters until the quote character is found, returning the characters
before it; none if the end of input is reached first. -/
def scan_to_close (q : Char) : List Char → Option (List Char)
  | [] => none
  | c :: rest => if c == q then some [] else (scan_to_close q rest).map (fun l => c :: l)

/-- The common body of builtin_single_quoted::try_parse and
builtin_double_quoted::try_parse (magic.cpp, which contains the same code
twice, once per quote character): fail unless the input starts with the
quote character; then scan to the next occurrence of the quote character;
yield the slice strictly between the two quotes and consume the slice
plus both quotes; fail if the end of input arrives before the closing
quote. -/
def quoted_try_parse (q : Char) : BuiltinTryParse := fun in_ =>
  match in_ with
  | [] => none
  | c :: rest =>
      if c == q then (scan_to_close q rest).map (fun inner => (inner, inner.length + 2))
      else none

def builtin_single_quoted_try_parse : BuiltinTryParse := quoted_try_parse squote

def builtin_double_quoted_try_parse : BuiltinTryParse := quoted_try_parse '"'

/-- builtin_identifier::try_parse: fail unless the first character is a
leading identifier character, then take the run of identifier
characters. -/
def builtin_identifier_try_parse : BuiltinTryParse := fun in_ =>
  match in_ with
  | [] => none
  | c :: _ =>
      if is_leading_identifier_char c then
        some (in_.takeWhile is_identifier_char, (in_.takeWhile is_identifier_char).length)
      else none

/-! Primitive parsers, combinator.cpp and the Pred and Ret niebloids of
combinator.hpp. -/

/-- any_chr: return the next character, failing only at end of input. -/
def any_chr : ParserFun Char := runBody (do
  let c ← awaitNextChar
  Pure.pure c)

/-- The error message of chr: expected, a space and the character between
single quotes (built with squote to keep quote literals out of the
source). -/
def chr_err (c : Char) : String := "expected " ++ String.mk [squote, c, squote]

/-- chr c: consume the next character, fail if it differs from c, and
return c. -/
def chr (c : Char) : ParserFun Char := runBody (do
  let parsed_c ← awaitNextChar
  if parsed_c ≠ c then awaitFail (chr_err c) else Pure.pure ()
  Pure.pure c)

/-- pred f: consume one character, fail (with the default empty message)
if the predicate rejects it. -/
def pred (f : Char → Bool) : ParserFun Char := runBody (do
  let next ← awaitNextChar
  if !f next then awaitFail "" else Pure.pure ()
  Pure.pure next)

def is_digit (c : Char) : Bool := '0' ≤ c && c ≤ '9'

def is_lower (c : Char) : Bool := 'a' ≤ c && c ≤ 'z'

def is_upper (c : Char) : Bool := 'A' ≤ c && c ≤ 'Z'

def digit : ParserFun Char := pred is_digit

def lower : ParserFun Char := pred is_lower

def upper : ParserFun Char := pred is_upper

/-- Ret (combinator.hpp): a parser that just returns the given value. -/
def ret {α : Type} (o : α) : ParserFun α := runBody (Pure.pure o)

/-- The loop of str: await chr c for each character of the literal in
order. -/
def strBody : List Char → PM Unit
  | [] => Pure.pure ()
  | c :: cs => do
      let _ ← awaitP (chr c)
      strBody cs

/-- str sv: consume exactly the literal sv, character by character via
chr. -/
def str (sv : List Char) : ParserFun Unit := runBody (strBody sv)

/-- blanks (combinator.cpp): wrap builtin_blanks. -/
def blanks : ParserFun (List Char) := runBody (do
  let sv ← awaitBuiltin builtin_blanks_try_parse "blanks"
  Pure.pure sv)

/-- identifier (combinator.cpp): wrap builtin_identifier. -/
def identifier : ParserFun (List Char) := runBody (do
  let sv ← awaitBuiltin builtin_identifier_try_parse "identifier"
  Pure.pure sv)

/-- single_quoted_str (combinator.cpp): wrap builtin_single_quoted. -/
def single_quoted_str : ParserFun (List Char) := runBody (do
  let sv ← awaitBuiltin builtin_single_quoted_try_parse "single-quoted string"
  Pure.pure sv)

/-- double_quoted_str (combinator.cpp): wrap builtin_double_quoted. -/
def double_quoted_str : ParserFun (List Char) := runBody (do
  let sv ← awaitBuiltin builtin_double_quoted_try_parse "double-quoted string"
  Pure.pure sv)

/-- eof (combinator.cpp): attempt any_chr under try_; if it produced a
value there is input left and eof fails; otherwise succeed. -/
def eof : ParserFun Unit := runBody (do
  let c ← awaitTry any_chr
  match c with
  | some _ => awaitFail "failed to parse all characters in input stream"
  | none => Pure.pure ())

/-! Combinator library, combinator.hpp. -/

/-- The reserved message with which the fuelled model of the repetition
loop of Many signals that the loop does not terminate. No embedded parser
of the library produces this message itself. -/
def divergedMsg : String := "DIVERGENT"

/-- The while loop in Many::operator(): await try_ of the element parser;
stop (returning the collected results) at the first attempt that yields
no value; otherwise push the value and continue. The fuel argument bounds
the number of iterations of the model; running out of fuel signals
non-termination of the loop. The match on the error component is total
although awaitTry never yields an error. -/
def manyGo {α : Type} (p : ParserFun α) : Nat → List α → PM (List α)
  | 0, _ => fun s => (Except.error divergedMsg, s)
  | n + 1, acc => fun s =>
      match awaitTry p s with
      | (Except.ok none, s1) => (Except.ok acc, s1)
      | (Except.ok (some v), s1) => manyGo p n (acc ++ [v]) s1
      | (Except.error m, s1) => (Except.error m, s1)

/-- many (combinator.hpp, Many): parse zero or more of the given parser.
The fuel one-more-than-the-buffer-length is enough for every element
parser that consumes at least one character per success. -/
def many {α : Type} (p : ParserFun α) : ParserFun (List α) := fun buf =>
  runBody (manyGo p (buf.length + 1) []) buf

/-- many1 (combinator.hpp, Many1): await many, fail (with the default
empty message) if it collected nothing, and return the collection
otherwise. -/
def many1 {α : Type} (p : ParserFun α) : ParserFun (List α) := runBody (do
  let res ← awaitP (many p)
  if res.isEmpty then awaitFail "" else Pure.pure ()
  Pure.pure res)

/-- seq_first (combinator.hpp, SeqFirst) for two parsers: run both in
order, succeed only if both do, return the first result. -/
def seq_first {α β : Type} (p : ParserFun α) (q : ParserFun β) : ParserFun α := runBody (do
  let res ← awaitP p
  let _ ← awaitP q
  Pure.pure res)

/-- seq_first applied to a parser and a try_-wrapped parser, the shape
used by InterleaveLast when the separator is not required. -/
def seq_first_try {α β : Type} (p : ParserFun α) (q : ParserFun β) : ParserFun α := runBody (do
  let res ← awaitP p
  let _ ← awaitTry q
  Pure.pure res)

/-- seq_last (combinator.hpp, SeqLast) for two parsers: run both in
order, succeed only if both do, return the last result. -/
def seq_last {α β : Type} (p : ParserFun α) (q : ParserFun β) : ParserFun β := runBody (do
  let _ ← awaitP p
  let r ← awaitP q
  Pure.pure r)

/-- exhaust (combinator.hpp, Exhaust): run the parser, then require end
of input via eof, and return the result of the parser. -/
def exhaust {α : Type} (p : ParserFun α) : ParserFun α := runBody (do
  let res ← awaitP p
  let _ ← awaitP eof
  Pure.pure res)

/-- The lambda named one inside First::operator(): a sub-parser that,
given the current best result, skips entirely when a result already
exists, and otherwise attempts the alternative under try_, recording the
value on success. The C++ lambda mutates the captured optional; here the
updated optional is the value of the sub-parser. -/
def oneAlt {α : Type} (res : Option α) (p : ParserFun α) : ParserFun (Option α) := runBody (do
  match res with
  | some v => Pure.pure (some v)
  | none =>
      let exp ← awaitTry p
      match exp with
      | none => Pure.pure none
      | some v => Pure.pure (some v))

/-- The fold in First::operator(): await the one sub-parser for each
alternative in declared order, threading the optional result. -/
def firstGo {α : Type} (acc : Option α) : List (ParserFun α) → PM (Option α)
  | [] => Pure.pure acc
  | p :: ps => do
      let acc2 ← awaitP (oneAlt acc p)
      firstGo acc2 ps

/-- first (combinator.hpp, First): run the alternatives in declared order
until the first success, return its result, and fail with the default
empty message if none succeeds. -/
def first {α : Type} (ps : List (ParserFun α)) : ParserFun α := runBody (do
  let res ← firstGo none ps
  match res with
  | none => awaitFail ""
  | some v => Pure.pure v)

/-- interleave_last (combinator.hpp, InterleaveLast): parse f g f g f g,
returning the f results: many of seq_first f g when the separator is
required, many of seq_first f (try_ g) otherwise. -/
def interleave_last {α β : Type} (f : ParserFun α) (g : ParserFun β)
    (sep_required : Bool) : ParserFun (List α) :=
  if sep_required then
    runBody (do
      let r ← awaitP (many (seq_first f g))
      Pure.pure r)
  else
    runBody (do
      let r ← awaitP (many (seq_first_try f g))
      Pure.pure r)

/-- interleave (combinator.hpp, Interleave): parse f g f g f, returning
the f results: interleave_last followed, when the separator is required,
by one final f. -/
def interleave {α β : Type} (f : ParserFun α) (g : ParserFun β)
    (sep_required : Bool) : ParserFun (List α) := runBody (do
  let container ← awaitP (interleave_last f g sep_required)
  if sep_required then
    let v ← awaitP f
    Pure.pure (container ++ [v])
  else
    Pure.pure container)

/-! Basic extension parsers, ext-basic.cpp. -/

/-- safe_stoi (ext-basic.cpp): error on the empty string, otherwise parse
with std::stoi and succeed only when every character was consumed.
std::stoi is standard-library code; it is modelled here by its documented
behaviour on the strings this library ever passes (outputs of
many1(digit), hence nonempty all-digit strings, which std::stoi converts
in full to their decimal value): a nonempty all-digit string yields its
decimal value, anything else yields the error. -/
def safe_stoi (s : List Char) : Except String Int :=
  if s.isEmpty then Except.error "error parsing int"
  else if s.all is_digit then
    Except.ok (s.foldl (fun a c => a * 10 + ((c.toNat : Int) - 48)) 0)
  else Except.error "error parsing int"

/-- Modelled from the spec: the helper lift awaited by parse_int and
parse_double in ext-basic.cpp is declared in a header that is absent from
the sources (as are concepts.hpp and unique-coro.hpp). It converts a
ready result into a parser, and is modelled with the semantics the
Unwrap combinator in combinator.hpp documents for dereferenceable
objects: fail with the stored error message when there is no value,
return the value otherwise, consuming nothing. -/
def lift {α : Type} (r : Except String α) : ParserFun α := runBody (
  match r with
  | Except.ok v => Pure.pure v
  | Except.error m => awaitFail m)

/-- parse_int (ext-basic.cpp): an optional leading minus sign selects the
multiplier, then one or more digits are collected and converted with
safe_stoi, and the product is returned. -/
def parse_int : ParserFun Int := runBody (do
  let m ← awaitTry (chr '-')
  let multiplier : Int := match m with | some _ => -1 | none => 1
  let ds ← awaitP (many1 digit)
  let n ← awaitP (lift (safe_stoi ds))
  Pure.pure (multiplier * n))

/-! Variant dispatch, ext-std.hpp. -/

/-- The lambda named one inside VariantParser::operator(): like oneAlt
for First, but the candidate parser has its own value type and a
successful value is stored into the variant (res.emplace); the injection
argument models that conversion. -/
def oneVar {β V : Type} (res : Option V) (p : ParserFun β) (inj : β → V) :
    ParserFun (Option V) := runBody (do
  match res with
  | some v => Pure.pure (some v)
  | none =>
      let exp ← awaitTry p
      match exp with
      | none => Pure.pure none
      | some v => Pure.pure (some (inj v)))

/-- VariantParser::operator() (ext-std.hpp) for a three-candidate
variant: fold the one sub-parser over the candidates in the order they
are declared in the variant type, then fail with the default empty
message if no candidate matched. -/
def variant3 {β1 β2 β3 V : Type} (p1 : ParserFun β1) (i1 : β1 → V)
    (p2 : ParserFun β2) (i2 : β2 → V) (p3 : ParserFun β3) (i3 : β3 → V) :
    ParserFun V := runBody (do
  let r1 ← awaitP (oneVar none p1 i1)
  let r2 ← awaitP (oneVar r1 p2 i2)
  let r3 ← awaitP (oneVar r2 p3 i3)
  match r3 with
  | none => awaitFail ""
  | some v => Pure.pure v)

/-- A value that is exactly one of number, boolean or string: the closed
candidate set of the variant-dispatch example in the spec (sections 4.5
and 8). -/
inductive JsonVal where
  | num (n : Int)
  | boolean (b : Bool)
  | str (s : List Char)
deriving Repr, DecidableEq

/-- The boolean grammar production of the json example: the literal true
followed by ret true, or the literal false followed by ret false, in
ordered choice. -/
def jbool : ParserFun Bool :=
  first [seq_last (str ("true".toList)) (ret true),
         seq_last (str ("false".toList)) (ret false)]

/-! Runner and diagnostics, runner.hpp and error.hpp. -/

/-- Line and column of an error, error.hpp. -/
structure ErrorPos where
  line : Nat
  col : Nat
deriving Repr, DecidableEq

/-- Modelled from the spec: ErrorPos::from_index is declared in error.hpp
but its definition is not among the sources. Spec section 4.6: convert
the offset into a 1-based line and column by scanning the input for line
breaks up to that offset. The line is one more than the number of line
feeds strictly before the offset and the column is one more than the
number of characters since the last line feed. -/
def ErrorPos.from_index (in_ : List Char) (idx : Nat) : ErrorPos :=
  { line := 1 + (in_.take idx).count '\n',
    col := ((in_.take idx).reverse.takeWhile (fun c => c != '\n')).length + 1 }

/-- run_parser (runner.hpp), under a Lean-friendly name: drive the parser
over the whole input once; on success return the value; on failure format
filename, the literal error, the line and the column derived from the
farthest offset minus one (the source notes the offset is always one too
far), and the message. The minus one is the truncated subtraction on Nat;
the C++ int subtraction can reach -1 only when the farthest offset is 0,
a case in which the behaviour of the absent from_index definition is
unknown. -/
def runParser {α : Type} (filename : String) (in_ : List Char) (p : ParserFun α) :
    Except String α :=
  match p in_ with
  | PResult.ok v _ _ => Except.ok v
  | PResult.err m f =>
      let ep := ErrorPos.from_index in_ (f - 1)
      Except.error (filename ++ ":error:" ++ toString ep.line ++ ":" ++
        toString ep.col ++ " " ++ m)

/-! The many_exhaust combinator, combinator.hpp (ManyExhaust). -/

/-- The reserved message modelling the process abort of assert(false). -/
def assertFalseMsg : String := "ASSERT(false)"

/-- The evident intent of ManyExhaust::operator() (combinator.hpp). The
code as written is ill-formed at every instantiation: it calls a function
exaust that exists nowhere (the combinator is named exhaust), and it
omits the co_await on the try_ wrapper, whose type has neither has_value
nor dereference. This definition models the body with those two slips
repaired: await try_ of exhaust of many of the element parser; on a value
return it; otherwise run the element parser once more, propagating its
failure, and reach assert(false), modelled as an error with a reserved
message, if it succeeds instead. -/
def many_exhaust_fixed {α : Type} (f : ParserFun α) : ParserFun (List α) := runBody (do
  let res ← awaitTry (exhaust (many f))
  match res with
  | some l => Pure.pure l
  | none =>
      let _ ← awaitP f
      (awaitFail assertFalseMsg : PM (List α)))

/-! Theorems. -/

/-- Claim C1: for every parser p and every cursor state, if p fails when
driven at the current buffer then awaiting try_ of p yields the empty
optional and the enclosing body continues normally with its continuation,
the buffer and consumed count are exactly what they were before the
attempt, and the farthest offset afterwards is at least its value before;
if p succeeds, the value is yielded and the cursor advance of p is
kept. -/
theorem try_cursor_neutral {α β : Type} (p : ParserFun α) (k : Option α → PM β)
    (s : PState) :
    (∀ m f, p s.buf = PResult.err m f →
        (awaitTry p >>= k) s =
          k none ⟨s.buf, s.consumed, max s.farthest (s.consumed + f)⟩ ∧
        s.farthest ≤ max s.farthest (s.consumed + f)) ∧
    (∀ v c f, p s.buf = PResult.ok v c f →
        (awaitTry p >>= k) s =
          k (some v) ⟨s.buf.drop c, s.consumed + c, max s.farthest (s.consumed + f)⟩) := by
  constructor
  · intro m f h
    refine ⟨?_, Nat.le_max_left _ _⟩
    show PM.bind (awaitTry p) k s = _
    simp only [PM.bind, awaitTry, h]
  · intro v c f h
    show PM.bind (awaitTry p) k s = _
    simp only [PM.bind, awaitTry, h]

theorem try_cursor_neutral_witness :
    (awaitTry (chr 'a') >>= (Pure.pure : Option Char → PM (Option Char))) ⟨['x'], 0, 0⟩ =
        (Pure.pure : Option Char → PM (Option Char)) none ⟨['x'], 0, max 0 (0 + 1)⟩ ∧
      (0 : Nat) ≤ max 0 (0 + 1) :=
  (try_cursor_neutral (chr 'a') Pure.pure ⟨['x'], 0, 0⟩).1 (chr_err 'a') 1 rfl

/-- Claim C2 (amended): the farthest offset of a promise never decreases
across an await of a sub-parser, of a try_-wrapped sub-parser, or of
fail; it is only the direct await of a builtin primitive (which assigns
farthest_ := consumed_) that can decrease it, as the counterexample
shows. -/
theorem farthest_monotone_subparser_awaits {α : Type} (p : ParserFun α)
    (msg : String) (s : PState) :
    s.farthest ≤ ((awaitP p) s).2.farthest ∧
    s.farthest ≤ ((awaitTry p) s).2.farthest ∧
    ((awaitFail msg : PM α) s).2.farthest = s.farthest := by
  refine ⟨?_, ?_, rfl⟩
  · cases h : p s.buf <;> simp [awaitP, h, Nat.le_max_left]
  · cases h : p s.buf <;> simp [awaitTry, h, Nat.le_max_left]

/-- Claim C2, counterexample: in a coroutine that first awaits
try_ of chr a on the buffer x (pushing the farthest offset to 1) and then
awaits the blanks builtin (which succeeds consuming nothing and assigns
farthest_ := consumed_ = 0), the farthest offset decreases from 1 to 0 at
that step, and the finished parser reports farthest 0 although a failure
at offset 1 happened inside it. -/
theorem farthest_decrease_cex :
    ((awaitBuiltin builtin_blanks_try_parse "blanks")
        ((awaitTry (chr 'a') ⟨['x'], 0, 0⟩).2)).2.farthest <
      ((awaitTry (chr 'a') ⟨['x'], 0, 0⟩).2).farthest ∧
    runBody (do
        let _ ← awaitTry (chr 'a')
        let _ ← awaitBuiltin builtin_blanks_try_parse "blanks"
        Pure.pure ()) ['x'] = PResult.ok () 0 0 :=
  ⟨by decide, by decide⟩

/-- Claim C6: the code of ManyExhaust is ill-formed at every
instantiation (it calls the nonexistent exaust and omits co_await on the
try_ wrapper), so the combinator has no behaviour at all; and even with
those two slips repaired, the claim fails whenever the repetition
collected at least one element: the try_ refund rewinds the cursor to the
original position, the extra run of the element parser there succeeds,
and assert(false) is reached (modelled as the reserved message) instead
of the element parser supplying the failure. Only in the zero-element
case does the extra run fail and supply the error, as the second and
third conjuncts show. -/
theorem many_exhaust_code_bug :
    many_exhaust_fixed digit ("12x".toList) = PResult.err assertFalseMsg 3 ∧
    many_exhaust_fixed digit ("x".toList) = PResult.err "" 1 ∧
    digit ("x".toList) = PResult.err "" 1 :=
  ⟨by decide!, by decide!, by decide!⟩

/-- Claim C7: with separators required, interleave with primary the
integer parser and separator the comma parses 1,2,3 into the ordered
sequence of the three integers consuming the whole input, and fails on
1,2, with its trailing separator. -/
theorem interleave_comma_list :
    interleave parse_int (chr ',') true ("1,2,3".toList) =
      PResult.ok [(1 : Int), 2, 3] 5 5 ∧
    interleave parse_int (chr ',') true ("1,2,".toList) = PResult.err "" 4 :=
  ⟨by decide!, by decide!⟩

/-- Claim C8: exhaust of the literal parser for abc succeeds on abc
consuming all three characters; on abcd the literal matches but input
remains and the failure carries the incomplete-consumption message of
eof; on ab the literal itself fails, with the unexpected-end-of-input
message of the next-character primitive. -/
theorem exhaust_literal_roundtrip :
    exhaust (str ("abc".toList)) ("abc".toList) = PResult.ok () 3 3 ∧
    exhaust (str ("abc".toList)) ("abcd".toList) =
      PResult.err "failed to parse all characters in input stream" 4 ∧
    exhaust (str ("abc".toList)) ("ab".toList) = PResult.err "EOF" 2 :=
  ⟨by decide!, by decide!, by decide!⟩

/-- Evaluation of a parser that awaits one builtin and returns its slice,
the shape of blanks, identifier, single_quoted_str and
double_quoted_str. -/
theorem builtin_wrapper_eq (tp : BuiltinTryParse) (name : String) (in_ : List Char) :
    runBody (do
      let sv ← awaitBuiltin tp name
      Pure.pure sv) in_ =
      match tp in_ with
      | some r => PResult.ok r.1 r.2 r.2
      | none => PResult.err ("expected " ++ name) 0 := by
  cases h : tp in_ <;>
    simp [runBody, PM.bind_eq, PM.pure_eq, awaitBuiltin, h]

theorem blanks_count_le (l : List Char) : blanks_count l ≤ l.length := by
  induction l with
  | nil => simp [blanks_count]
  | cons c rest ih =>
      by_cases hc : is_blank c
      · simp only [blanks_count, hc, if_true, List.length_cons]; omega
      · simp [blanks_count, hc]

theorem blanks_take_blank (l : List Char) :
    ∀ c ∈ l.take (blanks_count l), is_blank c = true := by
  induction l with
  | nil => simp
  | cons a rest ih =>
      by_cases ha : is_blank a
      · intro c hc
        simp only [blanks_count, ha, if_true, List.take_succ_cons, List.mem_cons] at hc
        rcases hc with rfl | hc
        · exact ha
        · exact ih c hc
      · simp [blanks_count, ha]

theorem blanks_drop_not_blank (l : List Char) :
    ∀ c t2, l.drop (blanks_count l) = c :: t2 → is_blank c = false := by
  induction l with
  | nil => intro c t2 h; simp [blanks_count] at h
  | cons a rest ih =>
      intro c t2 h
      by_cases ha : is_blank a
      · simp only [blanks_count, ha, if_true, List.drop_succ_cons] at h
        exact ih c t2 h
      · simp only [blanks_count, ha, if_false, List.drop_zero] at h
        cases h
        simpa using ha

/-- Claim C10: the blanks builtin is total: on every input it succeeds,
and it yields exactly the maximal leading run of blank characters (space,
line feed, carriage return, tab), consuming its length; the wrapping
blanks parser returns that run having consumed exactly it. -/
theorem blanks_total_maximal (in_ : List Char) :
    ∃ r t, builtin_blanks_try_parse in_ = some (r, r.length) ∧
      in_ = r ++ t ∧
      (∀ c ∈ r, is_blank c = true) ∧
      (∀ c t2, t = c :: t2 → is_blank c = false) ∧
      blanks in_ = PResult.ok r r.length r.length := by
  have hlen : (in_.take (blanks_count in_)).length = blanks_count in_ := by
    rw [List.length_take]
    exact Nat.min_eq_left (blanks_count_le in_)
  refine ⟨in_.take (blanks_count in_), in_.drop (blanks_count in_), ?_, ?_, ?_, ?_, ?_⟩
  · rw [hlen]; rfl
  · exact (List.take_append_drop _ _).symm
  · exact blanks_take_blank in_
  · exact blanks_drop_not_blank in_
  · rw [hlen]
    have h := builtin_wrapper_eq builtin_blanks_try_parse "blanks" in_
    simpa [blanks, builtin_blanks_try_parse] using h

theorem blanks_total_maximal_witness :
    ∃ r t, builtin_blanks_try_parse (' ' :: '\t' :: 'a' :: []) = some (r, r.length) ∧
      (' ' :: '\t' :: 'a' :: []) = r ++ t ∧
      (∀ c ∈ r, is_blank c = true) ∧
      (∀ c t2, t = c :: t2 → is_blank c = false) ∧
      blanks (' ' :: '\t' :: 'a' :: []) = PResult.ok r r.length r.length :=
  blanks_total_maximal (' ' :: '\t' :: 'a' :: [])

theorem scan_to_close_none_iff (q : Char) (l : List Char) :
    scan_to_close q l = none ↔ q ∉ l := by
  induction l with
  | nil => simp [scan_to_close]
  | cons c rest ih =>
      by_cases hc : c = q
      · subst hc; simp [scan_to_close]
      · simp only [scan_to_close, beq_iff_eq, hc, if_false, List.mem_cons]
        rw [Option.map_eq_none']
        rw [ih]
        constructor
        · intro h hmem
          rcases hmem with rfl | hmem
          · exact hc rfl
          · exact h hmem
        · intro h hmem
          exact h (Or.inr hmem)

theorem scan_to_close_first (q : Char) (pre post : List Char) (h : q ∉ pre) :
    scan_to_close q (pre ++ q :: post) = some pre := by
  induction pre with
  | nil => simp [scan_to_close]
  | cons c pc ih =>
      have hc : ¬ c = q := by
        intro e; exact h (by rw [e]; exact List.mem_cons_self _ _)
      have hpc : q ∉ pc := fun hm => h (List.mem_cons_of_mem _ hm)
      simp only [List.cons_append, scan_to_close, beq_iff_eq, hc, if_false, List.append_eq]
      rw [ih hpc]
      rfl

/-- The success-or-failure shape of the quoted-string builtin for one
quote character: it yields a value precisely when the input starts with
the quote character and that character occurs again later; on the
decomposition at the first later occurrence it yields the slice between
the quotes and consumes it plus the two quotes. -/
theorem quoted_try_parse_spec (q : Char) (in_ : List Char) :
    ((∃ r, quoted_try_parse q in_ = some r) ↔
      ∃ rest, in_ = q :: rest ∧ q ∈ rest) ∧
    (∀ pre post, in_ = q :: (pre ++ q :: post) → q ∉ pre →
      quoted_try_parse q in_ = some (pre, pre.length + 2)) := by
  constructor
  · constructor
    · intro hr
      obtain ⟨r, hr⟩ := hr
      cases in_ with
      | nil => simp [quoted_try_parse] at hr
      | cons c rest =>
          by_cases hc : c = q
          · subst hc
            refine ⟨rest, rfl, ?_⟩
            by_contra hmem
            have hn : scan_to_close c rest = none :=
              (scan_to_close_none_iff c rest).mpr hmem
            simp [quoted_try_parse, hn] at hr
          · simp [quoted_try_parse, hc] at hr
    · intro hr
      obtain ⟨rest, rfl, hmem⟩ := hr
      obtain ⟨inner, hinner⟩ : ∃ inner, scan_to_close q rest = some inner := by
        cases hscan : scan_to_close q rest with
        | none => exact absurd ((scan_to_close_none_iff q rest).mp hscan) (by simp [hmem])
        | some inner => exact ⟨inner, rfl⟩
      exact ⟨(inner, inner.length + 2), by simp [quoted_try_parse, hinner]⟩
  · intro pre post hin hpre
    subst hin
    simp [quoted_try_parse, scan_to_close_first q pre post hpre]

/-- Claim C9 (amended): the single- and double-quoted builtins succeed
precisely when the input begins with the opening quote character and the
quote character occurs again before end of input, with no escape
processing: the scan stops at the first later quote character even when a
backslash precedes it. On success the slice strictly between the opening
quote and that first closing quote is returned and the slice plus the two
quotes is consumed (also visible in the wrapping parsers); when the end
of input is reached before a closing quote they fail. -/
theorem quoted_scan_amended (in_ : List Char) :
    ((∃ r, builtin_single_quoted_try_parse in_ = some r) ↔
      ∃ rest, in_ = squote :: rest ∧ squote ∈ rest) ∧
    ((∃ r, builtin_double_quoted_try_parse in_ = some r) ↔
      ∃ rest, in_ = '"' :: rest ∧ '"' ∈ rest) ∧
    (∀ pre post, in_ = squote :: (pre ++ squote :: post) → squote ∉ pre →
      builtin_single_quoted_try_parse in_ = some (pre, pre.length + 2) ∧
      single_quoted_str in_ = PResult.ok pre (pre.length + 2) (pre.length + 2)) ∧
    (∀ pre post, in_ = '"' :: (pre ++ '"' :: post) → '"' ∉ pre →
      builtin_double_quoted_try_parse in_ = some (pre, pre.length + 2) ∧
      double_quoted_str in_ = PResult.ok pre (pre.length + 2) (pre.length + 2)) := by
  refine ⟨(quoted_try_parse_spec squote in_).1, (quoted_try_parse_spec '"' in_).1, ?_, ?_⟩
  · intro pre post hin hpre
    have hb : builtin_single_quoted_try_parse in_ = some (pre, pre.length + 2) :=
      (quoted_try_parse_spec squote in_).2 pre post hin hpre
    refine ⟨hb, ?_⟩
    have h := builtin_wrapper_eq builtin_single_quoted_try_parse "single-quoted string" in_
    rw [hb] at h
    simpa [single_quoted_str] using h
  · intro pre post hin hpre
    have hb : builtin_double_quoted_try_parse in_ = some (pre, pre.length + 2) :=
      (quoted_try_parse_spec '"' in_).2 pre post hin hpre
    refine ⟨hb, ?_⟩
    have h := builtin_wrapper_eq builtin_double_quoted_try_parse "double-quoted string" in_
    rw [hb] at h
    simpa [double_quoted_str] using h

theorem quoted_scan_witness :
    builtin_single_quoted_try_parse (squote :: 'a' :: 'b' :: squote :: 'x' :: []) =
      some (['a', 'b'], 4) ∧
    single_quoted_str (squote :: 'a' :: 'b' :: squote :: 'x' :: []) =
      PResult.ok ['a', 'b'] 4 4 :=
  (quoted_scan_amended (squote :: 'a' :: 'b' :: squote :: 'x' :: [])).2.2.1
    ['a', 'b'] ['x'] rfl (by decide)

/-- Helper used by the claim C9 counterexample only: the words of the
spec, for refinement comparison. An unescaped closing quote is an
occurrence of the quote character, after the opening one, whose preceding
character is not a backslash; this predicate scans the input remembering
the previous character. -/
def has_unescaped_close (q : Char) : Char → List Char → Bool
  | _, [] => false
  | prev, c :: rest => ((c == q) && !(prev == '\\')) || has_unescaped_close q c rest

/-- Helper used by the claim C9 counterexample only: the spec-side
success condition of a quoted-string primitive, following the words of
the spec: the input begins with the opening quote character and a
matching unescaped closing quote occurs before end of input. -/
def spec_quoted_accepts (q : Char) (in_ : List Char) : Bool :=
  match in_ with
  | [] => false
  | c0 :: rest => (c0 == q) && has_unescaped_close q c0 rest

/-- Claim C9, counterexample: on the three-character input consisting of
a quote, a backslash and a quote, the only candidate closing quote is
preceded by a backslash, so under the claim (which requires an unescaped
closing quote) the parse should fail; the code has no escape processing
and succeeds, returning the backslash as the inner slice and consuming
all three characters. -/
theorem quoted_unescaped_cex :
    builtin_single_quoted_try_parse (squote :: '\\' :: squote :: []) =
      some (['\\'], 3) ∧
    spec_quoted_accepts squote (squote :: '\\' :: squote :: []) = false := by
  exact ⟨by decide, by decide⟩

theorem oneAlt_skip {α : Type} (v : α) (p : ParserFun α) (b : List Char) :
    oneAlt (some v) p b = PResult.ok (some v) 0 0 := rfl

theorem oneAlt_none_ok {α : Type} (p : ParserFun α) (b : List Char) (v : α)
    (c f : Nat) (h : p b = PResult.ok v c f) :
    oneAlt none p b = PResult.ok (some v) c f := by
  simp [oneAlt, runBody, PM.bind_eq, PM.pure_eq, awaitTry, h]

theorem oneAlt_none_err {α : Type} (p : ParserFun α) (b : List Char) (m : String)
    (f : Nat) (h : p b = PResult.err m f) :
    oneAlt none p b = PResult.ok none 0 f := by
  simp [oneAlt, runBody, PM.bind_eq, PM.pure_eq, awaitTry, h]

theorem firstGo_skip {α : Type} (v : α) :
    ∀ (qs : List (ParserFun α)) (s : PState),
      ∃ f2, firstGo (some v) qs s = (Except.ok (some v), ⟨s.buf, s.consumed, f2⟩) ∧
        s.farthest ≤ f2 := by
  intro qs
  induction qs with
  | nil => intro s; exact ⟨s.farthest, rfl, Nat.le_refl _⟩
  | cons q qs ih =>
      intro s
      obtain ⟨f2, hgo, hle⟩ := ih ⟨s.buf, s.consumed, max s.farthest s.consumed⟩
      refine ⟨f2, ?_, le_trans (Nat.le_max_left _ _) hle⟩
      show (awaitP (oneAlt (some v) q) >>= fun acc2 => firstGo acc2 qs) s = _
      rw [PM.bind_eq]
      simp only [awaitP, oneAlt_skip, List.drop_zero, Nat.add_zero]
      exact hgo

theorem firstGo_err_prefix {α : Type} (b : List Char) :
    ∀ (qs ps2 : List (ParserFun α)) (C F : Nat),
      (∀ q ∈ qs, ∃ m g, q b = PResult.err m g) →
      ∃ F2, F ≤ F2 ∧
        firstGo none (qs ++ ps2) ⟨b, C, F⟩ = firstGo none ps2 ⟨b, C, F2⟩ := by
  intro qs
  induction qs with
  | nil => intro ps2 C F _; exact ⟨F, Nat.le_refl _, rfl⟩
  | cons q qs ih =>
      intro ps2 C F h
      obtain ⟨m, g, hq⟩ := h q (List.mem_cons_self _ _)
      obtain ⟨F2, hle, heq⟩ :=
        ih ps2 C (max F (C + g)) (fun x hx => h x (List.mem_cons_of_mem _ hx))
      refine ⟨F2, le_trans (Nat.le_max_left _ _) hle, ?_⟩
      show (awaitP (oneAlt none q) >>= fun acc2 => firstGo acc2 (qs ++ ps2)) ⟨b, C, F⟩ = _
      rw [PM.bind_eq]
      simp only [awaitP, oneAlt_none_err q b m g hq, List.drop_zero, Nat.add_zero]
      exact heq

theorem firstGo_cons_ok {α : Type} (p : ParserFun α) (rs : List (ParserFun α))
    (b : List Char) (C F : Nat) (v : α) (c f : Nat) (h : p b = PResult.ok v c f) :
    firstGo none (p :: rs) ⟨b, C, F⟩ =
      firstGo (some v) rs ⟨b.drop c, C + c, max F (C + f)⟩ := by
  show (awaitP (oneAlt none p) >>= fun acc2 => firstGo acc2 rs) ⟨b, C, F⟩ = _
  rw [PM.bind_eq]
  simp only [awaitP, oneAlt_none_ok p b v c f h]

theorem first_eval {α : Type} (ps : List (ParserFun α)) (b : List Char) :
    first ps b =
      match firstGo none ps ⟨b, 0, 0⟩ with
      | (Except.ok none, s) => PResult.err "" s.farthest
      | (Except.ok (some v), s) => PResult.ok v s.consumed s.farthest
      | (Except.error m, s) => PResult.err m s.farthest := by
  cases h : firstGo none ps ⟨b, 0, 0⟩ with
  | mk res s =>
      cases res with
      | ok o =>
          cases o with
          | none => simp [first, runBody, PM.bind_eq, h, awaitFail]
          | some v => simp [first, runBody, PM.bind_eq, h, PM.pure_eq]
      | error m => simp [first, runBody, PM.bind_eq, h]

/-- Every list of alternatives either fails everywhere at the given
buffer, or splits at the first alternative that succeeds there. -/
theorem exists_first_success {α : Type} (ps : List (ParserFun α)) (b : List Char) :
    (∀ q ∈ ps, ∃ m g, q b = PResult.err m g) ∨
    ∃ qs p rs, ps = qs ++ p :: rs ∧
      (∀ q ∈ qs, ∃ m g, q b = PResult.err m g) ∧
      ∃ v c f, p b = PResult.ok v c f := by
  induction ps with
  | nil => left; intro q hq; exact absurd hq (List.not_mem_nil q)
  | cons q ps ih =>
      cases hq : q b with
      | ok v c f =>
          right
          exact ⟨[], q, ps, rfl, by intro x hx; exact absurd hx (List.not_mem_nil x),
            v, c, f, hq⟩
      | err m g =>
          cases ih with
          | inl h =>
              left
              intro x hx
              rcases List.mem_cons.mp hx with rfl | hx
              · exact ⟨m, g, hq⟩
              · exact h x hx
          | inr h =>
              obtain ⟨qs, p, rs, rfl, hqs, hp⟩ := h
              right
              refine ⟨q :: qs, p, rs, rfl, ?_, hp⟩
              intro x hx
              rcases List.mem_cons.mp hx with rfl | hx
              · exact ⟨m, g, hq⟩
              · exact hqs x hx

theorem first_ok_of_split {α : Type} (qs : List (ParserFun α)) (p : ParserFun α)
    (rs : List (ParserFun α)) (b : List Char) (v : α) (c f : Nat)
    (hqs : ∀ q ∈ qs, ∃ m g, q b = PResult.err m g) (hp : p b = PResult.ok v c f) :
    ∃ f2, first (qs ++ p :: rs) b = PResult.ok v c f2 := by
  obtain ⟨F2, _, heq⟩ := firstGo_err_prefix b qs (p :: rs) 0 0 hqs
  obtain ⟨f3, hskip, _⟩ := firstGo_skip v rs ⟨b.drop c, 0 + c, max F2 (0 + f)⟩
  refine ⟨f3, ?_⟩
  rw [first_eval, heq, firstGo_cons_ok p rs b 0 F2 v c f hp]
  rw [show firstGo (some v) rs ⟨b.drop c, 0 + c, max F2 (0 + f)⟩ =
        (Except.ok (some v), ⟨b.drop c, 0 + c, f3⟩) from hskip]
  simp

theorem first_err_of_all_err {α : Type} (ps : List (ParserFun α)) (b : List Char)
    (h : ∀ q ∈ ps, ∃ m g, q b = PResult.err m g) :
    ∃ f2, first ps b = PResult.err "" f2 := by
  obtain ⟨F2, _, heq⟩ := firstGo_err_prefix b ps [] 0 0 h
  rw [List.append_nil] at heq
  exact ⟨F2, by rw [first_eval, heq]; rfl⟩

theorem oneVar_skip {β V : Type} (w : V) (p : ParserFun β) (inj : β → V)
    (b : List Char) : oneVar (some w) p inj b = PResult.ok (some w) 0 0 := rfl

theorem oneVar_none_ok {β V : Type} (p : ParserFun β) (inj : β → V) (b : List Char)
    (v : β) (c f : Nat) (h : p b = PResult.ok v c f) :
    oneVar none p inj b = PResult.ok (some (inj v)) c f := by
  simp [oneVar, runBody, PM.bind_eq, PM.pure_eq, awaitTry, h]

theorem oneVar_none_err {β V : Type} (p : ParserFun β) (inj : β → V) (b : List Char)
    (m : String) (f : Nat) (h : p b = PResult.err m f) :
    oneVar none p inj b = PResult.ok none 0 f := by
  simp [oneVar, runBody, PM.bind_eq, PM.pure_eq, awaitTry, h]

/-- Claim C3: ordered alternation is left-biased and tried in declared
order. If every alternative before p fails at the buffer and p succeeds,
the result of first is the value and consumption of p, whatever
alternatives follow p (they are never driven: the conclusion holds for
every rs). The combinator fails exactly when every alternative fails, and
then with the generic empty message, the branch errors being discarded.
The variant parser built on the same scheme honours the declared
candidate order: over number, boolean, string candidates, the input true
yields the boolean value with the number candidate having failed first,
and the string candidate is never driven (the conclusion holds for every
p3). -/
theorem first_ordered_choice {α : Type} (qs : List (ParserFun α)) (p : ParserFun α)
    (rs : List (ParserFun α)) (b : List Char) (v : α) (c f : Nat) :
    ((∀ q ∈ qs, ∃ m g, q b = PResult.err m g) → p b = PResult.ok v c f →
      ∃ f2, first (qs ++ p :: rs) b = PResult.ok v c f2) ∧
    ((∀ q ∈ qs ++ p :: rs, ∃ m g, q b = PResult.err m g) →
      ∃ f2, first (qs ++ p :: rs) b = PResult.err "" f2) ∧
    (∀ m f2, first (qs ++ p :: rs) b = PResult.err m f2 →
      (∀ q ∈ qs ++ p :: rs, ∃ m2 g, q b = PResult.err m2 g) ∧ m = "") ∧
    (∀ p3 : ParserFun (List Char),
      variant3 parse_int JsonVal.num jbool JsonVal.boolean p3 JsonVal.str
        ("true".toList) = PResult.ok (JsonVal.boolean true) 4 4) := by
  refine ⟨?_, ?_, ?_, ?_⟩
  · exact fun hqs hp => first_ok_of_split qs p rs b v c f hqs hp
  · exact fun hall => first_err_of_all_err (qs ++ p :: rs) b hall
  · intro m f2 hferr
    rcases exists_first_success (qs ++ p :: rs) b with hall |
      ⟨qs0, p0, rs0, hsplit, hqs0, v0, c0, f0, hp0⟩
    · obtain ⟨F2, hcomp⟩ := first_err_of_all_err (qs ++ p :: rs) b hall
      rw [hferr] at hcomp
      injection hcomp with h1 _
      exact ⟨hall, h1⟩
    · obtain ⟨f3, hok⟩ := first_ok_of_split qs0 p0 rs0 b v0 c0 f0 hqs0 hp0
      rw [hsplit] at hferr
      rw [hferr] at hok
      simp at hok
  · intro p3
    have h1 : parse_int ("true".toList) = PResult.err "" 1 := by decide!
    have h2 : jbool ("true".toList) = PResult.ok true 4 4 := by decide!
    have e1 : oneVar (none : Option JsonVal) parse_int JsonVal.num ("true".toList) =
        PResult.ok none 0 1 := oneVar_none_err _ _ _ _ _ h1
    have e2 : oneVar (none : Option JsonVal) jbool JsonVal.boolean ("true".toList) =
        PResult.ok (some (JsonVal.boolean true)) 4 4 := oneVar_none_ok _ _ _ _ _ _ h2
    simp only [variant3, runBody, PM.bind_eq, PM.pure_eq, awaitP, e1, e2, oneVar_skip,
      List.drop_zero, Nat.add_zero, Nat.zero_add, Nat.zero_max]
    decide

theorem first_ordered_choice_witness :
    ∃ f2, first ([chr 'a'] ++ chr 'b' :: [chr 'c']) ("b".toList) =
      PResult.ok 'b' 1 f2 :=
  (first_ordered_choice [chr 'a'] (chr 'b') [chr 'c'] ("b".toList) 'b' 1 1).1
    (by
      intro q hq
      rw [List.mem_singleton] at hq
      subst hq
      exact ⟨chr_err 'a', 1, by decide!⟩)
    (by decide!)

/-- The successive-attempts relation realised by the many loop: either
the element parser fails at once (collecting nothing, consuming nothing,
recording the farthest offset of the failed attempt), or it succeeds and
the loop continues on the rest of the buffer, accumulating consumption
and combining farthest offsets the way the awaits do. -/
inductive ManyRun {α : Type} (p : ParserFun α) : List Char → List α → Nat → Nat → Prop where
  | stop : ∀ {b : List Char} {m : String} {f : Nat},
      p b = PResult.err m f → ManyRun p b [] 0 f
  | step : ∀ {b : List Char} {v : α} {c f : Nat} {l : List α} {c2 f2 : Nat},
      p b = PResult.ok v c f → ManyRun p (b.drop c) l c2 f2 →
      ManyRun p b (v :: l) (c + c2) (max f (c + f2))

/-- An element parser makes progress when every success consumes at least
one character (and no more than the buffer holds, as every parser driven
by the engine does). -/
def Progress {α : Type} (p : ParserFun α) : Prop :=
  ∀ b v c f, p b = PResult.ok v c f → 1 ≤ c ∧ c ≤ b.length

theorem manyGo_sound {α : Type} (p : ParserFun α) (hp : Progress p) :
    ∀ (n : Nat) (b : List Char), b.length + 1 ≤ n → ∀ (acc : List α) (C F : Nat),
      ∃ l c f, ManyRun p b l c f ∧
        manyGo p n acc ⟨b, C, F⟩ =
          (Except.ok (acc ++ l), ⟨b.drop c, C + c, max F (C + f)⟩) := by
  intro n
  induction n with
  | zero => intro b hb; exact absurd hb (Nat.not_succ_le_zero _)
  | succ n ih =>
      intro b hb acc C F
      cases hpb : p b with
      | err m f =>
          refine ⟨[], 0, f, ManyRun.stop hpb, ?_⟩
          simp only [manyGo]
          rw [show awaitTry p ⟨b, C, F⟩ =
                (Except.ok (none : Option α), ⟨b, C, max F (C + f)⟩) from by
              simp [awaitTry, hpb]]
          show (Except.ok acc, (⟨b, C, max F (C + f)⟩ : PState)) = _
          simp
      | ok v c f =>
          obtain ⟨hc1, hc2⟩ := hp b v c f hpb
          have hlen : (b.drop c).length + 1 ≤ n := by
            rw [List.length_drop]; omega
          obtain ⟨l, c2, f2, hrun, heq⟩ :=
            ih (b.drop c) hlen (acc ++ [v]) (C + c) (max F (C + f))
          refine ⟨v :: l, c + c2, max f (c + f2), ManyRun.step hpb hrun, ?_⟩
          simp only [manyGo]
          rw [show awaitTry p ⟨b, C, F⟩ =
                (Except.ok (some v), ⟨b.drop c, C + c, max F (C + f)⟩) from by
              simp [awaitTry, hpb]]
          show manyGo p n (acc ++ [v]) ⟨b.drop c, C + c, max F (C + f)⟩ = _
          rw [heq]
          have hfar : max (max F (C + f)) (C + c + f2) = max F (C + max f (c + f2)) := by
            omega
          have hdrop : (b.drop c).drop c2 = b.drop (c + c2) := by
            rw [List.drop_drop]
          have happ : (acc ++ [v]) ++ l = acc ++ v :: l := by simp
          rw [hdrop, happ, hfar, Nat.add_assoc]

/-- Claim C4 (amended): for every element parser that consumes at least
one character on each success, many collects the values of the
successive successful attempts, stops without failing at the first failed
attempt refunding only that attempt, and succeeds with the collected
possibly-empty sequence; many1 returns the same sequence and fails (with
the generic empty message) exactly when many collected nothing, which
happens exactly when the element parser fails on the first attempt. For
an element parser that can succeed without consuming, the loop never
terminates, as the counterexample records. -/
theorem many_many1_amended {α : Type} (p : ParserFun α) (hp : Progress p)
    (b : List Char) :
    ∃ l c f, ManyRun p b l c f ∧
      many p b = PResult.ok l c f ∧
      many1 p b = (if l.isEmpty then PResult.err "" f else PResult.ok l c f) ∧
      (l = [] ↔ ∃ m g, p b = PResult.err m g) := by
  obtain ⟨l, c, f, hrun, heq⟩ := manyGo_sound p hp (b.length + 1) b (Nat.le_refl _) [] 0 0
  have hmany : many p b = PResult.ok l c f := by
    show runBody (manyGo p (b.length + 1) []) b = _
    simp [runBody, heq]
  refine ⟨l, c, f, hrun, hmany, ?_, ?_⟩
  · show runBody _ b = _
    cases hl : l.isEmpty <;>
      simp [runBody, PM.bind_eq, PM.pure_eq, awaitP, awaitFail, hmany, hl]
  · constructor
    · intro hl
      cases hrun with
      | stop h => exact ⟨_, _, h⟩
      | step h hr => exact absurd hl (by simp)
    · rintro ⟨m, g, hpb⟩
      cases hrun with
      | stop h => rfl
      | step h hr => rw [hpb] at h; exact absurd h (by simp)

theorem many_many1_witness :
    ∃ l c f, ManyRun digit ("12a".toList) l c f ∧
      many digit ("12a".toList) = PResult.ok l c f ∧
      many1 digit ("12a".toList) = (if l.isEmpty then PResult.err "" f
        else PResult.ok l c f) ∧
      (l = [] ↔ ∃ m g, digit ("12a".toList) = PResult.err m g) :=
  many_many1_amended digit
    (by
      intro b v c f h
      cases b with
      | nil => simp [digit, pred, runBody, PM.bind_eq, awaitNextChar] at h
      | cons a rest =>
          cases ha : is_digit a
          · rw [show digit (a :: rest) = PResult.err "" 1 from by
                simp [digit, pred, runBody, PM.bind_eq, PM.pure_eq, awaitNextChar,
                  awaitFail, ha]] at h
            exact absurd h (by simp)
          · rw [show digit (a :: rest) = PResult.ok a 1 1 from by
                simp [digit, pred, runBody, PM.bind_eq, PM.pure_eq, awaitNextChar,
                  awaitFail, ha]] at h
            injection h with h1 h2 h3
            refine ⟨by omega, by simp [← h2]⟩)
    ("12a".toList)

theorem manyGo_ret_diverges :
    ∀ (n : Nat) (acc : List Nat) (s : PState),
      ∃ s2, manyGo (ret 0) n acc s = (Except.error divergedMsg, s2) := by
  intro n
  induction n with
  | zero => intro acc s; exact ⟨s, rfl⟩
  | succ n ih =>
      intro acc s
      obtain ⟨s2, h⟩ := ih (acc ++ [0]) ⟨s.buf, s.consumed, max s.farthest s.consumed⟩
      refine ⟨s2, ?_⟩
      simp only [manyGo]
      rw [show awaitTry (ret 0) s =
            (Except.ok (some 0), ⟨s.buf, s.consumed, max s.farthest s.consumed⟩) from by
          simp [awaitTry, ret, runBody, PM.pure_eq]]
      exact h

/-- Claim C4, counterexample: with the element parser ret 0, which
succeeds consuming nothing, the many loop never terminates: for every
amount of fuel the model reports the reserved divergence marker and the
loop never completes with a collected sequence, so many(ret 0) on the
empty input does not succeed with the collected sequence the claim
promises for every element parser (the engine loops forever, the hazard
the spec notes in section 9). -/
theorem many_zero_consumption_cex :
    many (ret (0 : Nat)) [] = PResult.err divergedMsg 0 ∧
    ¬ ∃ n acc l s2, manyGo (ret (0 : Nat)) n acc ⟨[], 0, 0⟩ = (Except.ok l, s2) := by
  constructor
  · rfl
  · rintro ⟨n, acc, l, s2, h⟩
    obtain ⟨s3, h2⟩ := manyGo_ret_diverges n acc ⟨[], 0, 0⟩
    rw [h] at h2
    simp at h2

/-- Claim C5: runParser drives the parser over the full input once; on
success it returns the value; on failure it returns an error whose text
is the filename, the literal error, the 1-based line (one more than the
number of line feeds scanned in the input up to the farthest offset) and
column (one more than the number of characters since the last line feed
there), followed by the message, where the scanned offset is the
farthest offset reached by any attempt during the whole parse (in the
promise accounting, the farthest counter minus one, the counter being one
past the last character reached). -/
theorem runParser_spec {α : Type} (fn : String) (in_ : List Char) (p : ParserFun α) :
    (∀ v c f, p in_ = PResult.ok v c f → runParser fn in_ p = Except.ok v) ∧
    (∀ m f, p in_ = PResult.err m f →
      runParser fn in_ p = Except.error (fn ++ ":error:" ++
        toString (1 + (in_.take (f - 1)).count '\n') ++ ":" ++
        toString (((in_.take (f - 1)).reverse.takeWhile (fun c => c != '\n')).length + 1)
        ++ " " ++ m)) := by
  constructor
  · intro v c f h
    simp [runParser, h]
  · intro m f h
    simp [runParser, ErrorPos.from_index, h]

theorem runParser_spec_witness :
    runParser "input.txt" ("12a".toList) (exhaust (many1 digit)) =
      Except.error "input.txt:error:1:3 failed to parse all characters in input stream" := by
  have h := (runParser_spec "input.txt" ("12a".toList) (exhaust (many1 digit))).2
    "failed to parse all characters in input stream" 3 (by decide!)
  exact h.trans (by decide)

end Parsco
